import Mathlib

/-!
Verification of the git-sniff-otter aggregation pipeline.

Shallow embedding of the Python modules `data_transformer.py`,
`slack_sender.py` and `llm_generator.py`.  Python strings are modelled as
`List Char` (`Str`), Python `datetime` values as `Int` timestamps in
seconds (so `timedelta.days` is floor division by 86400), Python `Counter`
objects as functions `Str → Nat`, Python `set` objects as `Finset Str`,
and Python `dict` objects (which iterate in insertion order) as
association lists.  True division is modelled in `ℚ`.
-/

set_option maxRecDepth 8000

/-- A Python string, modelled as its list of characters. -/
abbrev Str := List Char

/-- Python `s.lower()`: lower-case every character. -/
def pyLower (s : Str) : Str := s.map Char.toLower

/-- Python `str.split(sep)` for a one-character separator: splits at every
occurrence of `sep`, keeping empty pieces; the result is never empty. -/
def pySplit (s : Str) (sep : Char) : List Str :=
  match s with
  | [] => [[]]
  | c :: rest =>
    match pySplit rest sep with
    | [] => if c = sep then [[], []] else [[c]]
    | h :: t => if c = sep then [] :: h :: t else (c :: h) :: t

/-- Python `str.strip()`: drop whitespace from both ends. -/
def pyStrip (s : Str) : Str :=
  ((s.dropWhile Char.isWhitespace).reverse.dropWhile Char.isWhitespace).reverse

/-- Python `"\n".join`: interleave a newline between the pieces. -/
def joinLines (ls : List Str) : Str := List.intercalate [Char.ofNat 10] ls

theorem pySplit_ne_nil (s : Str) (sep : Char) : pySplit s sep ≠ [] := by
  cases s with
  | nil => simp [pySplit]
  | cons c rest =>
    rcases hps : pySplit rest sep with _ | ⟨h, t⟩ <;>
      simp only [pySplit, hps] <;> split <;> simp

theorem pySplit_not_mem (s : Str) (sep : Char) (h : sep ∉ s) :
    pySplit s sep = [s] := by
  induction s with
  | nil => rfl
  | cons c rest ih =>
    simp only [List.mem_cons, not_or] at h
    simp only [pySplit, ih h.2]
    simp [Ne.symm h.1]

theorem pySplit_two_le (s : Str) (sep : Char) (h : sep ∈ s) :
    2 ≤ (pySplit s sep).length := by
  induction s with
  | nil => simp at h
  | cons c rest ih =>
    simp only [pySplit]
    rcases hps : pySplit rest sep with _ | ⟨p, t⟩
    · exact absurd hps (pySplit_ne_nil rest sep)
    · by_cases hc : c = sep
      · simp [hc]
      · simp only [if_neg hc]
        rcases List.mem_cons.mp h with hcc | hrest
        · exact absurd hcc.symm hc
        · have := ih hrest
          rw [hps] at this
          simpa using this

/-- Joining the pieces of a split recovers the original string. -/
theorem joinLines_pySplit (s : Str) : joinLines (pySplit s (Char.ofNat 10)) = s := by
  induction s with
  | nil => rfl
  | cons c rest ih =>
    simp only [pySplit]
    rcases hps : pySplit rest (Char.ofNat 10) with _ | ⟨h, t⟩
    · exact absurd hps (pySplit_ne_nil rest _)
    · rw [hps] at ih
      by_cases hc : c = Char.ofNat 10
      · subst hc
        simp only [if_pos rfl]
        simpa [joinLines, List.intercalate] using ih
      · simp only [if_neg hc]
        simp only [joinLines, List.intercalate] at ih ⊢
        cases t <;> simp_all

theorem takeWhile_append_all {q : Char → Bool} {l₁ l₂ : Str}
    (h : ∀ x ∈ l₁, q x = true) :
    (l₁ ++ l₂).takeWhile q = l₁ ++ l₂.takeWhile q := by
  induction l₁ with
  | nil => simp
  | cons a l ih =>
    have ha := h a (by simp)
    simp only [List.cons_append, List.takeWhile_cons, ha, if_true]
    simp only [ih (fun x hx => h x (by simp [hx]))]

theorem takeWhile_append_stop {q : Char → Bool} {l₁ : Str} (l₂ : Str)
    (h : ∃ x ∈ l₁, q x = false) :
    (l₁ ++ l₂).takeWhile q = l₁.takeWhile q := by
  induction l₁ with
  | nil => simp at h
  | cons a l ih =>
    by_cases ha : q a = true
    · simp only [List.cons_append, List.takeWhile_cons, ha, if_true]
      rcases h with ⟨x, hx, hqx⟩
      rcases List.mem_cons.mp hx with rfl | hxl
      · exact absurd ha (by simp [hqx])
      · rw [ih ⟨x, hxl, hqx⟩]
    · simp [List.takeWhile_cons, ha]

theorem takeWhile_eq_self {q : Char → Bool} {l : Str}
    (h : ∀ x ∈ l, q x = true) : l.takeWhile q = l := by
  induction l with
  | nil => rfl
  | cons a t ih =>
    simp only [List.takeWhile_cons, h a (by simp), if_true]
    rw [ih (fun x hx => h x (by simp [hx]))]

/-! ### File-extension classification (`data_transformer.py`, lines 36-39
and 97-100) -/

/-- Model of `file_path.split(".")[-1].lower()` guarded by `"." in file_path`:
the extension key of a changed file path, or `none` for dot-less paths. -/
def fileExtension (p : Str) : Option Str :=
  if ('.' : Char) ∈ p then some (pyLower ((pySplit p '.').getLastD [])) else none

/-- The substring of `p` after its last dot (spec's description of the
extension rule). -/
def afterLastDot (p : Str) : Str :=
  (p.reverse.takeWhile (fun c => c ≠ '.')).reverse

theorem afterLastDot_not_mem {p : Str} (h : ('.' : Char) ∉ p) :
    afterLastDot p = p := by
  rw [afterLastDot, takeWhile_eq_self, List.reverse_reverse]
  intro x hx
  simp only [ne_eq, decide_eq_true_eq]
  intro hxd
  exact h (by rw [← hxd]; exact List.mem_reverse.mp hx)

theorem afterLastDot_cons (c : Char) (rest : Str) :
    afterLastDot (c :: rest) =
      if ('.' : Char) ∈ rest then afterLastDot rest
      else if c = '.' then rest else c :: rest := by
  by_cases hr : ('.' : Char) ∈ rest
  · rw [if_pos hr, afterLastDot, afterLastDot, List.reverse_cons,
      takeWhile_append_stop]
    exact ⟨'.', List.mem_reverse.mpr hr, by simp⟩
  · rw [if_neg hr, afterLastDot, List.reverse_cons, takeWhile_append_all]
    · by_cases hc : c = '.'
      · subst hc
        simp [List.takeWhile]
      · simp [List.takeWhile, hc]
    · intro x hx
      simp only [ne_eq, decide_eq_true_eq]
      intro hxd
      exact hr (by rw [← hxd]; exact List.mem_reverse.mp hx)

theorem getLastD_cons_cons (a b : Str) (l : List Str) (d : Str) :
    (a :: b :: l).getLastD d = (b :: l).getLastD d := by
  simp [List.getLastD_cons]

/-- The last piece of `p.split(".")` is the substring after the last dot. -/
theorem pySplit_getLastD (p : Str) :
    (pySplit p '.').getLastD [] = afterLastDot p := by
  induction p with
  | nil => rfl
  | cons c rest ih =>
    rcases hps : pySplit rest '.' with _ | ⟨h, t⟩
    · exact absurd hps (pySplit_ne_nil rest _)
    · rw [hps] at ih
      rw [afterLastDot_cons]
      simp only [pySplit, hps]
      by_cases hc : c = '.'
      · subst hc
        rw [if_pos rfl, getLastD_cons_cons, ih]
        by_cases hr : ('.' : Char) ∈ rest
        · rw [if_pos hr]
        · rw [if_neg hr, afterLastDot_not_mem hr]
          simp
      · rw [if_neg hc]
        cases t with
        | nil =>
          have hr : ('.' : Char) ∉ rest := by
            intro hmem
            have := pySplit_two_le rest '.' hmem
            rw [hps] at this
            simp at this
          have hhr : h = rest := by
            have := pySplit_not_mem rest '.' hr
            rw [hps] at this
            simpa using this
          subst hhr
          simp [hr, hc]
        | cons t0 ts =>
          have hr : ('.' : Char) ∈ rest := by
            by_contra hno
            have := pySplit_not_mem rest '.' hno
            rw [hps] at this
            simp at this
          rw [getLastD_cons_cons] at ih
          rw [if_pos hr, getLastD_cons_cons]
          exact ih

/-! ### The commit data model (`data_collector.CommitData`, `RepositoryData`) -/

/-- One normalized commit record (`CommitData.__init__`). -/
structure CommitData where
  sha : Str
  author_name : Str
  author_email : Str
  message : Str
  date : Int
  files_changed : List Str
  insertions : Nat
  deletions : Nat
  lines_changed : Nat
  deriving DecidableEq

/-- Raw data for one repository (`RepositoryData`): name, path and commits. -/
structure RepositoryData where
  name : Str
  path : Str
  commits : List CommitData
  deriving DecidableEq

/-- One `Counter[extension] += 1` step of the file-type tracking loop. -/
def bumpCounter (f : Str → Nat) (p : Str) : Str → Nat :=
  match fileExtension p with
  | some e => fun k => if k = e then f k + 1 else f k
  | none => f

/-- The `for file_path in commit.files_changed` file-type loop. -/
def updateFileTypes (f : Str → Nat) (paths : List Str) : Str → Nat :=
  paths.foldl bumpCounter f

/-! ### Author aggregation (`data_transformer.AuthorStats`) -/

/-- Mutable per-author statistics (`AuthorStats.__init__`). -/
structure AuthorStats where
  name : Str
  email : Str
  total_commits : Nat
  total_insertions : Nat
  total_deletions : Nat
  total_files_changed : Nat
  repositories : Finset Str
  file_types : Str → Nat
  commit_messages : List Str
  first_commit_date : Option Int
  last_commit_date : Option Int

/-- Constructor `AuthorStats(name, email)`: the empty aggregate. -/
def mkAuthorStats (name email : Str) : AuthorStats :=
  { name := name, email := email, total_commits := 0, total_insertions := 0,
    total_deletions := 0, total_files_changed := 0, repositories := ∅,
    file_types := fun _ => 0, commit_messages := [],
    first_commit_date := none, last_commit_date := none }

instance : Inhabited AuthorStats := ⟨mkAuthorStats [] []⟩

/-- Method `AuthorStats.add_commit`: fold one commit into the aggregate. -/
def AuthorStats.add_commit (s : AuthorStats) (commit : CommitData)
    (repo_name : Str) : AuthorStats :=
  { s with
    total_commits := s.total_commits + 1
    total_insertions := s.total_insertions + commit.insertions
    total_deletions := s.total_deletions + commit.deletions
    total_files_changed := s.total_files_changed + commit.files_changed.length
    repositories := insert repo_name s.repositories
    commit_messages := s.commit_messages ++ [commit.message]
    file_types := updateFileTypes s.file_types commit.files_changed
    first_commit_date :=
      match s.first_commit_date with
      | none => some commit.date
      | some f => if commit.date < f then some commit.date else some f
    last_commit_date :=
      match s.last_commit_date with
      | none => some commit.date
      | some l => if commit.date > l then some commit.date else some l }

/-- Python `timedelta.days` for a difference of two second-resolution timestamps. -/
def timedeltaDays (diff : Int) : Int := Int.fdiv diff 86400

/-- Method `AuthorStats._calculate_active_days`. -/
def AuthorStats.calculate_active_days (s : AuthorStats) : Int :=
  match s.first_commit_date, s.last_commit_date with
  | some f, some l => timedeltaDays (l - f) + 1
  | _, _ => 0

/-! ### Repository aggregation (`data_transformer.RepositoryStats`) -/

/-- One entry of `commit_timeline`. -/
structure TimelineEntry where
  date : Int
  author : Str
  message : Str
  changes : Nat
  deriving DecidableEq

/-- Per-repository statistics (`RepositoryStats.__init__` state). -/
structure RepositoryStats where
  name : Str
  path : Str
  total_commits : Nat
  unique_authors : Finset Str
  total_insertions : Nat
  total_deletions : Nat
  total_files_changed : Finset Str
  file_types : Str → Nat
  commit_timeline : List TimelineEntry

/-- One iteration of the `for commit in repo_data.commits` loop. -/
def repoStep (st : RepositoryStats) (commit : CommitData) : RepositoryStats :=
  { st with
    unique_authors := insert commit.author_email st.unique_authors
    total_insertions := st.total_insertions + commit.insertions
    total_deletions := st.total_deletions + commit.deletions
    total_files_changed := st.total_files_changed ∪ commit.files_changed.toFinset
    file_types := updateFileTypes st.file_types commit.files_changed
    commit_timeline := st.commit_timeline ++
      [⟨commit.date, commit.author_name, commit.message.take 100,
        commit.lines_changed⟩] }

/-- Constructor `RepositoryStats(repo_data)`: initial state, then the commit loop. -/
def mkRepositoryStats (rd : RepositoryData) : RepositoryStats :=
  rd.commits.foldl repoStep
    { name := rd.name, path := rd.path, total_commits := rd.commits.length,
      unique_authors := ∅, total_insertions := 0, total_deletions := 0,
      total_files_changed := ∅, file_types := fun _ => 0,
      commit_timeline := [] }

/-! ### The transform (`data_transformer.DataTransformer.transform`) -/

/-- The key `f"\x7bcommit.author_name\x7d:\x7bcommit.author_email\x7d"`. -/
def authorKey (c : CommitData) : Str := c.author_name ++ ':' :: c.author_email

/-- One iteration of the author-map loop: create the entry on a fresh key,
then `add_commit`; insertion order of the Python dict is preserved. -/
def addToAuthorMap (m : List (Str × AuthorStats)) (c : CommitData)
    (repoName : Str) : List (Str × AuthorStats) :=
  match m with
  | [] => [(authorKey c,
      (mkAuthorStats c.author_name c.author_email).add_commit c repoName)]
  | (k, v) :: rest =>
    if k = authorKey c then (k, v.add_commit c repoName) :: rest
    else (k, v) :: addToAuthorMap rest c repoName

/-- All commits of all repositories, each paired with its repository name,
in the iteration order of the two nested loops. -/
def allCommits (repos : List RepositoryData) : List (CommitData × Str) :=
  (repos.map fun r => r.commits.map fun c => (c, r.name)).flatten

/-- The author map after the nested loops of `transform`. -/
def authorMap (repos : List RepositoryData) : List (Str × AuthorStats) :=
  (allCommits repos).foldl (fun m p => addToAuthorMap m p.1 p.2) []

/-- The comparison used by `sort(key=lambda a: a.total_commits, reverse=True)`:
a stable sort that puts larger commit counts first. -/
def authorLE (a b : AuthorStats) : Bool := decide (b.total_commits ≤ a.total_commits)

/-- The `time_window` mapping (dates kept as timestamps). -/
structure TimeWindow where
  start_date : Int
  end_date : Int
  duration_days : Int
  deriving DecidableEq

/-- The `overall_stats` mapping built by `_calculate_overall_stats`
(`top_file_types`, a projection of `all_file_types`, is not modelled). -/
structure OverallStats where
  total_commits : Nat
  total_insertions : Nat
  total_deletions : Nat
  net_lines : Int
  total_repositories : Nat
  total_authors : Nat
  all_file_types : Str → Nat
  top_authors_by_commits : List (Str × Nat)
  avg_commits_per_day : ℚ

/-- Method `DataTransformer._calculate_overall_stats`. -/
def calculate_overall_stats (start_date end_date : Int)
    (repo_stats : List RepositoryStats) (author_stats : List AuthorStats) :
    OverallStats :=
  let total_commits := (repo_stats.map (·.total_commits)).sum
  let total_insertions := (repo_stats.map (·.total_insertions)).sum
  let total_deletions := (repo_stats.map (·.total_deletions)).sum
  { total_commits := total_commits
    total_insertions := total_insertions
    total_deletions := total_deletions
    net_lines := (total_insertions : Int) - (total_deletions : Int)
    total_repositories := repo_stats.length
    total_authors := author_stats.length
    all_file_types :=
      repo_stats.foldl (fun f r k => f k + r.file_types k) (fun _ => 0)
    top_authors_by_commits :=
      (author_stats.take 5).map fun a => (a.name, a.total_commits)
    avg_commits_per_day :=
      (total_commits : ℚ) /
        ((max (timedeltaDays (end_date - start_date)) 1 : Int) : ℚ) }

/-- `TransformedData` after `transform` has filled it in. -/
structure TransformedData where
  overall_stats : OverallStats
  repository_stats : List RepositoryStats
  author_stats : List AuthorStats
  time_window : TimeWindow

/-- Method `DataTransformer.transform`. -/
def transform (start_date end_date : Int) (repos : List RepositoryData) :
    TransformedData :=
  let repo_stats := repos.map mkRepositoryStats
  let sorted := ((authorMap repos).map Prod.snd).mergeSort authorLE
  { overall_stats := calculate_overall_stats start_date end_date repo_stats sorted
    repository_stats := repo_stats
    author_stats := sorted
    time_window :=
      ⟨start_date, end_date, timedeltaDays (end_date - start_date)⟩ }

/-- The `summary` mapping of `TransformedData._generate_summary`. -/
structure SummaryStats where
  total_commits : Nat
  total_authors : Nat
  total_repositories : Nat
  avg_commits_per_author : ℚ
  avg_commits_per_repo : ℚ
  deriving DecidableEq

/-- Method `TransformedData._generate_summary`. -/
def generate_summary (t : TransformedData) : SummaryStats :=
  let total_commits := (t.repository_stats.map (·.total_commits)).sum
  let total_authors := t.author_stats.length
  let total_repositories := t.repository_stats.length
  { total_commits := total_commits
    total_authors := total_authors
    total_repositories := total_repositories
    avg_commits_per_author :=
      if total_authors > 0 then (total_commits : ℚ) / (total_authors : ℚ) else 0
    avg_commits_per_repo :=
      if total_repositories > 0 then (total_commits : ℚ) / (total_repositories : ℚ)
      else 0 }

/-! ### Folding commits into one author aggregate -/

/-- A fresh `AuthorStats(name, email)` fed a sequence of
`(commit, repo_name)` pairs through `add_commit`, in order. -/
def foldAuthor (name email : Str) (ps : List (CommitData × Str)) : AuthorStats :=
  ps.foldl (fun s p => s.add_commit p.1 p.2) (mkAuthorStats name email)

theorem add_commit_total_commits (s : AuthorStats) (c : CommitData) (r : Str) :
    (s.add_commit c r).total_commits = s.total_commits + 1 := rfl

theorem add_commit_total_insertions (s : AuthorStats) (c : CommitData) (r : Str) :
    (s.add_commit c r).total_insertions = s.total_insertions + c.insertions := rfl

theorem add_commit_total_files_changed (s : AuthorStats) (c : CommitData)
    (r : Str) :
    (s.add_commit c r).total_files_changed
      = s.total_files_changed + c.files_changed.length := rfl

theorem foldl_add_commit_counts (ps : List (CommitData × Str)) :
    ∀ init : AuthorStats,
      (ps.foldl (fun s p => s.add_commit p.1 p.2) init).total_commits
          = init.total_commits + ps.length
      ∧ (ps.foldl (fun s p => s.add_commit p.1 p.2) init).total_insertions
          = init.total_insertions + (ps.map fun p => p.1.insertions).sum
      ∧ (ps.foldl (fun s p => s.add_commit p.1 p.2) init).total_files_changed
          = init.total_files_changed
            + (ps.map fun p => p.1.files_changed.length).sum := by
  induction ps with
  | nil => intro init; simp
  | cons p rest ih =>
    intro init
    have h := ih (init.add_commit p.1 p.2)
    simp only [List.foldl_cons, List.map_cons, List.sum_cons, List.length_cons]
    rw [h.1, h.2.1, h.2.2, add_commit_total_commits, add_commit_total_insertions,
      add_commit_total_files_changed]
    omega

/-- C2: folding N commit records into one author aggregate makes
`total_commits = N`, `total_insertions` the sum of the records' insertion
counts, and `total_files_changed` the sum of the per-commit changed-file
list lengths (a multiplicity count). -/
theorem claim_C2_author_fold_totals (name email : Str)
    (ps : List (CommitData × Str)) :
    (foldAuthor name email ps).total_commits = ps.length
    ∧ (foldAuthor name email ps).total_insertions
        = (ps.map fun p => p.1.insertions).sum
    ∧ (foldAuthor name email ps).total_files_changed
        = (ps.map fun p => p.1.files_changed.length).sum := by
  have h := foldl_add_commit_counts ps (mkAuthorStats name email)
  simpa [foldAuthor, mkAuthorStats] using h

theorem add_commit_first_isSome (s : AuthorStats) (c : CommitData) (r : Str) :
    ((s.add_commit c r).first_commit_date).isSome := by
  show (match s.first_commit_date with
    | none => some c.date
    | some f => if c.date < f then some c.date else some f).isSome
  cases s.first_commit_date with
  | none => rfl
  | some f => dsimp only; split <;> rfl

theorem add_commit_last_isSome (s : AuthorStats) (c : CommitData) (r : Str) :
    ((s.add_commit c r).last_commit_date).isSome := by
  show (match s.last_commit_date with
    | none => some c.date
    | some l => if c.date > l then some c.date else some l).isSome
  cases s.last_commit_date with
  | none => rfl
  | some l => dsimp only; split <;> rfl

theorem foldl_add_commit_dates_isSome (ps : List (CommitData × Str)) :
    ∀ init : AuthorStats,
      init.first_commit_date.isSome → init.last_commit_date.isSome →
      ((ps.foldl (fun s p => s.add_commit p.1 p.2) init).first_commit_date).isSome
      ∧ ((ps.foldl (fun s p => s.add_commit p.1 p.2) init).last_commit_date).isSome := by
  induction ps with
  | nil => intro init h1 h2; exact ⟨h1, h2⟩
  | cons p rest ih =>
    intro init _ _
    exact ih (init.add_commit p.1 p.2) (add_commit_first_isSome init p.1 p.2)
      (add_commit_last_isSome init p.1 p.2)

/-- C6: after folding at least one commit, `active_days` equals
`(last_commit_date − first_commit_date).days + 1`; with no commits folded
it equals 0; and after a single commit it equals 1. -/
theorem claim_C6_active_days (name email : Str) (ps : List (CommitData × Str)) :
    (ps ≠ [] → ∃ f l,
      (foldAuthor name email ps).first_commit_date = some f
      ∧ (foldAuthor name email ps).last_commit_date = some l
      ∧ (foldAuthor name email ps).calculate_active_days
          = timedeltaDays (l - f) + 1)
    ∧ (foldAuthor name email []).calculate_active_days = 0
    ∧ ∀ (c : CommitData) (r : Str),
        (foldAuthor name email [(c, r)]).calculate_active_days = 1 := by
  refine ⟨?_, rfl, ?_⟩
  · intro hne
    cases ps with
    | nil => exact absurd rfl hne
    | cons p rest =>
      have h := foldl_add_commit_dates_isSome rest
        ((mkAuthorStats name email).add_commit p.1 p.2)
        (add_commit_first_isSome _ p.1 p.2) (add_commit_last_isSome _ p.1 p.2)
      rcases hf : (foldAuthor name email (p :: rest)).first_commit_date with _ | f
      · rw [foldAuthor, List.foldl_cons] at hf
        rw [hf] at h
        simp at h
      · rcases hl : (foldAuthor name email (p :: rest)).last_commit_date with _ | l
        · rw [foldAuthor, List.foldl_cons] at hl
          rw [hl] at h
          simp at h
        · exact ⟨f, l, rfl, rfl, by
            simp [AuthorStats.calculate_active_days, hf, hl]⟩
  · intro c r
    simp only [foldAuthor, List.foldl_cons, List.foldl_nil]
    simp [AuthorStats.calculate_active_days, AuthorStats.add_commit,
      mkAuthorStats, timedeltaDays, Int.sub_self]

/-- Sample data used by witness instantiations. -/
def demoCommit : CommitData :=
  { sha := "abc".toList, author_name := "Alice".toList,
    author_email := "alice@example.com".toList, message := "init".toList,
    date := 1000000, files_changed := ["a.py".toList, "b.md".toList],
    insertions := 50, deletions := 10, lines_changed := 60 }

theorem claim_C6_active_days_witness :
    (([(demoCommit, "repo".toList)] : List (CommitData × Str)) ≠ [])
    ∧ ∃ f l,
      (foldAuthor "Alice".toList "alice@example.com".toList
          [(demoCommit, "repo".toList)]).first_commit_date = some f
      ∧ (foldAuthor "Alice".toList "alice@example.com".toList
          [(demoCommit, "repo".toList)]).last_commit_date = some l
      ∧ (foldAuthor "Alice".toList "alice@example.com".toList
          [(demoCommit, "repo".toList)]).calculate_active_days
          = timedeltaDays (l - f) + 1 :=
  ⟨by simp,
    (claim_C6_active_days "Alice".toList "alice@example.com".toList
      [(demoCommit, "repo".toList)]).1 (by simp)⟩

/-! ### Author-map keying (`transform`, lines 189-202) -/

theorem addToAuthorMap_keys (m : List (Str × AuthorStats)) (c : CommitData)
    (r : Str) :
    (addToAuthorMap m c r).map Prod.fst =
      if authorKey c ∈ m.map Prod.fst then m.map Prod.fst
      else m.map Prod.fst ++ [authorKey c] := by
  induction m with
  | nil =>
    rw [if_neg (by simp)]
    rfl
  | cons kv rest ih =>
    obtain ⟨k, v⟩ := kv
    simp only [addToAuthorMap]
    by_cases hk : k = authorKey c
    · subst hk
      simp
    · have hk2 : authorKey c ≠ k := Ne.symm hk
      simp only [if_neg hk, List.map_cons, ih]
      by_cases hm : authorKey c ∈ rest.map Prod.fst <;> simp [hm, hk2]

theorem mem_keys_addToAuthorMap {m : List (Str × AuthorStats)}
    {c : CommitData} {r : Str} {k : Str} (h : k ∈ m.map Prod.fst) :
    k ∈ (addToAuthorMap m c r).map Prod.fst := by
  rw [addToAuthorMap_keys]
  by_cases hm : authorKey c ∈ m.map Prod.fst <;> simp [hm, h]

theorem authorKey_mem_addToAuthorMap (m : List (Str × AuthorStats))
    (c : CommitData) (r : Str) :
    authorKey c ∈ (addToAuthorMap m c r).map Prod.fst := by
  rw [addToAuthorMap_keys]
  by_cases hm : authorKey c ∈ m.map Prod.fst <;> simp [hm]

theorem foldl_authorMap_keys_mono (ps : List (CommitData × Str)) :
    ∀ (m : List (Str × AuthorStats)) (k : Str), k ∈ m.map Prod.fst →
      k ∈ ((ps.foldl (fun m p => addToAuthorMap m p.1 p.2) m)).map Prod.fst := by
  induction ps with
  | nil => intro m k h; exact h
  | cons p rest ih =>
    intro m k h
    exact ih (addToAuthorMap m p.1 p.2) k (mem_keys_addToAuthorMap h)

theorem authorKey_mem_foldl (ps : List (CommitData × Str)) :
    ∀ (m : List (Str × AuthorStats)) (c : CommitData) (r : Str),
      (c, r) ∈ ps →
      authorKey c ∈ ((ps.foldl (fun m p => addToAuthorMap m p.1 p.2) m)).map
        Prod.fst := by
  induction ps with
  | nil => intro m c r h; simp at h
  | cons p rest ih =>
    intro m c r h
    rcases List.mem_cons.mp h with rfl | h2
    · exact foldl_authorMap_keys_mono rest _ _
        (authorKey_mem_addToAuthorMap m c r)
    · exact ih (addToAuthorMap m p.1 p.2) c r h2

theorem authorKey_ne_of_same_email {c1 c2 : CommitData}
    (he : c1.author_email = c2.author_email)
    (hn : c1.author_name ≠ c2.author_name) :
    authorKey c1 ≠ authorKey c2 := by
  intro h
  apply hn
  rw [authorKey, authorKey, he] at h
  exact (List.append_inj' h rfl).1

theorem two_le_length_of_mem_ne {α : Type} {a b : α} :
    ∀ {l : List α}, a ∈ l → b ∈ l → a ≠ b → 2 ≤ l.length := by
  intro l
  induction l with
  | nil => intro ha; simp at ha
  | cons x xs ih =>
    intro ha hb hne
    rcases List.mem_cons.mp ha with rfl | ha2
    · rcases List.mem_cons.mp hb with rfl | hb2
      · exact absurd rfl hne
      · have := List.length_pos_of_mem hb2
        simp only [List.length_cons]
        omega
    · rcases List.mem_cons.mp hb with rfl | hb2
      · have := List.length_pos_of_mem ha2
        simp only [List.length_cons]
        omega
      · have := ih ha2 hb2 hne
        simp only [List.length_cons]
        omega

/-- C3: two commits with the same author email but different display names
produce two distinct author-map keys, hence (at least) two distinct
`AuthorStats` entries in the transform output. -/
theorem claim_C3_no_email_canonicalization (start_date end_date : Int)
    (repos : List RepositoryData) (c1 c2 : CommitData) (r1 r2 : Str)
    (h1 : (c1, r1) ∈ allCommits repos) (h2 : (c2, r2) ∈ allCommits repos)
    (he : c1.author_email = c2.author_email)
    (hn : c1.author_name ≠ c2.author_name) :
    authorKey c1 ≠ authorKey c2
    ∧ authorKey c1 ∈ (authorMap repos).map Prod.fst
    ∧ authorKey c2 ∈ (authorMap repos).map Prod.fst
    ∧ 2 ≤ (transform start_date end_date repos).author_stats.length := by
  have hne := authorKey_ne_of_same_email he hn
  have hm1 := authorKey_mem_foldl (allCommits repos) [] c1 r1 h1
  have hm2 := authorKey_mem_foldl (allCommits repos) [] c2 r2 h2
  refine ⟨hne, hm1, hm2, ?_⟩
  have hlen : 2 ≤ ((authorMap repos).map Prod.fst).length :=
    two_le_length_of_mem_ne hm1 hm2 hne
  simp only [transform, List.length_mergeSort, List.length_map] at *
  exact hlen

/-- A second sample commit: same email as `demoCommit`, different name. -/
def demoCommitB : CommitData := { demoCommit with author_name := "Bob".toList }

/-- The sample repository holding both sample commits. -/
def demoRepo : RepositoryData :=
  { name := "repo".toList, path := "/r".toList,
    commits := [demoCommitB, demoCommit] }

theorem claim_C3_no_email_canonicalization_witness :
    (demoCommitB, "repo".toList) ∈ allCommits [demoRepo]
    ∧ (demoCommit, "repo".toList) ∈ allCommits [demoRepo]
    ∧ 2 ≤ (transform 0 86400 [demoRepo]).author_stats.length := by
  refine ⟨by simp [allCommits, demoRepo], by simp [allCommits, demoRepo], ?_⟩
  exact (claim_C3_no_email_canonicalization 0 86400 [demoRepo] demoCommitB
    demoCommit "repo".toList "repo".toList
    (by simp [allCommits, demoRepo]) (by simp [allCommits, demoRepo])
    rfl (by decide)).2.2.2

theorem transform_author_stats (start_date end_date : Int)
    (repos : List RepositoryData) :
    (transform start_date end_date repos).author_stats
      = ((authorMap repos).map Prod.snd).mergeSort authorLE := rfl

/-- Commit whose name contains a colon: key `"a:b" + ":" + "c"`. -/
def collideA : CommitData :=
  { sha := "s1".toList, author_name := "a:b".toList, author_email := "c".toList,
    message := "m1".toList, date := 100, files_changed := [], insertions := 1,
    deletions := 0, lines_changed := 1 }

/-- Commit whose email contains a colon: key `"a" + ":" + "b:c"`. -/
def collideB : CommitData :=
  { sha := "s2".toList, author_name := "a".toList, author_email := "b:c".toList,
    message := "m2".toList, date := 200, files_changed := [], insertions := 2,
    deletions := 0, lines_changed := 2 }

/-- Repository holding the two key-colliding commits. -/
def collideRepo : RepositoryData :=
  { name := "repo".toList, path := "/r".toList, commits := [collideA, collideB] }

/-- C9: the `name:email` join is not injective — the commits by
`('a:b', 'c')` and `('a', 'b:c')` have distinct (name, email) pairs but the
same key, and the transform folds them into a single `AuthorStats` entry
with both commits counted. -/
theorem claim_C9_key_join_collision :
    authorKey collideA = authorKey collideB
    ∧ (collideA.author_name, collideA.author_email)
        ≠ (collideB.author_name, collideB.author_email)
    ∧ (transform 0 86400 [collideRepo]).author_stats.length = 1
    ∧ (transform 0 86400 [collideRepo]).author_stats.map
        (fun a => a.total_commits) = [2] := by
  refine ⟨by decide, by decide, ?_, ?_⟩
  · rw [transform_author_stats, List.length_mergeSort]
    decide
  · obtain ⟨a, ha⟩ := List.length_eq_one.mp
      (show ((authorMap [collideRepo]).map Prod.snd).length = 1 by decide)
    have h2 : ((authorMap [collideRepo]).map Prod.snd).map
        (fun a => a.total_commits) = [2] := by decide
    rw [transform_author_stats, ha, List.mergeSort_singleton]
    rw [ha] at h2
    exact h2

theorem authorLE_trans : ∀ a b c : AuthorStats,
    authorLE a b → authorLE b c → authorLE a c := by
  intro a b c hab hbc
  simp only [authorLE, decide_eq_true_eq] at *
  omega

theorem authorLE_total : ∀ a b : AuthorStats, authorLE a b || authorLE b a := by
  intro a b
  simp only [authorLE]
  rcases Nat.le_total b.total_commits a.total_commits with h | h <;> simp [h]

/-- C4: the transform's author list is sorted descending by
`total_commits`, and the sort is stable — for every commit count, the
entries with that count appear in the same relative order as in the
author-map fold (insertion) order. -/
theorem claim_C4_sorted_stable (start_date end_date : Int)
    (repos : List RepositoryData) :
    ((transform start_date end_date repos).author_stats).Pairwise
      (fun a b => b.total_commits ≤ a.total_commits)
    ∧ ∀ n : Nat,
      (transform start_date end_date repos).author_stats.filter
          (fun a => a.total_commits == n)
        = ((authorMap repos).map Prod.snd).filter
          (fun a => a.total_commits == n) := by
  rw [transform_author_stats]
  constructor
  · have h := List.sorted_mergeSort authorLE_trans authorLE_total
      ((authorMap repos).map Prod.snd)
    exact h.imp fun hab => by simpa [authorLE] using hab
  · intro n
    have hsub : List.Sublist
        (((authorMap repos).map Prod.snd).filter (fun a => a.total_commits == n))
        ((authorMap repos).map Prod.snd) :=
      List.filter_sublist _
    have hpw : (((authorMap repos).map Prod.snd).filter
        (fun a => a.total_commits == n)).Pairwise fun a b => authorLE a b := by
      apply List.pairwise_of_forall_mem_list
      intro a ha b hb
      have ha2 := (List.mem_filter.mp ha).2
      have hb2 := (List.mem_filter.mp hb).2
      simp only [beq_iff_eq] at ha2 hb2
      simp [authorLE, ha2, hb2]
    have hsub2 := List.sublist_mergeSort authorLE_trans authorLE_total hpw hsub
    have hsub3 := hsub2.filter (fun a => a.total_commits == n)
    rw [List.filter_filter] at hsub3
    simp only [Bool.and_self] at hsub3
    have hperm : List.Perm
        ((((authorMap repos).map Prod.snd).mergeSort authorLE).filter
          (fun a => a.total_commits == n))
        (((authorMap repos).map Prod.snd).filter
          (fun a => a.total_commits == n)) :=
      (List.mergeSort_perm _ authorLE).filter _
    exact (hsub3.eq_of_length hperm.length_eq.symm).symm

/-! ### File-type histograms are per-occurrence counts -/

theorem updateFileTypes_count (paths : List Str) :
    ∀ (f : Str → Nat) (k : Str),
      updateFileTypes f paths k = f k + (paths.filterMap fileExtension).count k := by
  induction paths with
  | nil => intro f k; simp [updateFileTypes]
  | cons p rest ih =>
    intro f k
    simp only [updateFileTypes, List.foldl_cons] at ih ⊢
    rw [ih (bumpCounter f p) k]
    cases hfe : fileExtension p with
    | none => simp [bumpCounter, hfe, List.filterMap_cons]
    | some e =>
      simp only [bumpCounter, hfe, List.filterMap_cons, List.count_cons]
      by_cases hk : k = e
      · subst hk
        simp only [if_pos rfl, beq_self_eq_true, if_true]
        omega
      · have : (e == k) = false := by simp [Ne.symm hk]
        simp [if_neg hk, this]

theorem add_commit_file_types (s : AuthorStats) (c : CommitData) (r : Str) :
    (s.add_commit c r).file_types = updateFileTypes s.file_types c.files_changed :=
  rfl

theorem foldl_add_commit_file_types (ps : List (CommitData × Str)) :
    ∀ (init : AuthorStats) (k : Str),
      (ps.foldl (fun s p => s.add_commit p.1 p.2) init).file_types k
        = init.file_types k
          + (((ps.map fun p => p.1.files_changed).flatten).filterMap
              fileExtension).count k := by
  induction ps with
  | nil => intro init k; simp
  | cons p rest ih =>
    intro init k
    simp only [List.foldl_cons, List.map_cons, List.flatten_cons]
    rw [ih (init.add_commit p.1 p.2) k, add_commit_file_types,
      updateFileTypes_count, List.filterMap_append, List.count_append]
    omega

theorem repoStep_file_types (st : RepositoryStats) (c : CommitData) :
    (repoStep st c).file_types = updateFileTypes st.file_types c.files_changed :=
  rfl

theorem foldl_repoStep_file_types (cs : List CommitData) :
    ∀ (init : RepositoryStats) (k : Str),
      (cs.foldl repoStep init).file_types k
        = init.file_types k
          + (((cs.map fun c => c.files_changed).flatten).filterMap
              fileExtension).count k := by
  induction cs with
  | nil => intro init k; simp
  | cons c rest ih =>
    intro init k
    simp only [List.foldl_cons, List.map_cons, List.flatten_cons]
    rw [ih (repoStep init c) k, repoStep_file_types, updateFileTypes_count,
      List.filterMap_append, List.count_append]
    omega

/-- C5: a path with a dot is classified under the lower-cased substring
after its last dot; a dot-less path is never classified; and both the
author-level and the repository-level histograms count per occurrence
across commits. -/
theorem claim_C5_extension_histograms :
    (∀ p : Str, ('.' : Char) ∉ p → fileExtension p = none)
    ∧ (∀ p : Str, ('.' : Char) ∈ p →
        fileExtension p = some (pyLower (afterLastDot p)))
    ∧ (∀ (name email : Str) (ps : List (CommitData × Str)) (k : Str),
        (foldAuthor name email ps).file_types k
          = (((ps.map fun p => p.1.files_changed).flatten).filterMap
              fileExtension).count k)
    ∧ (∀ (rd : RepositoryData) (k : Str),
        (mkRepositoryStats rd).file_types k
          = (((rd.commits.map fun c => c.files_changed).flatten).filterMap
              fileExtension).count k) := by
  refine ⟨?_, ?_, ?_, ?_⟩
  · intro p hp
    simp [fileExtension, hp]
  · intro p hp
    rw [fileExtension, if_pos hp, pySplit_getLastD]
  · intro name email ps k
    have h := foldl_add_commit_file_types ps (mkAuthorStats name email) k
    simpa [foldAuthor, mkAuthorStats] using h
  · intro rd k
    have h := foldl_repoStep_file_types rd.commits
      { name := rd.name, path := rd.path, total_commits := rd.commits.length,
        unique_authors := ∅, total_insertions := 0, total_deletions := 0,
        total_files_changed := ∅, file_types := fun _ => 0,
        commit_timeline := [] } k
    simpa [mkRepositoryStats] using h

theorem claim_C5_extension_histograms_witness :
    fileExtension "Makefile".toList = none
    ∧ fileExtension "archive.tar.GZ".toList
        = some (pyLower (afterLastDot "archive.tar.GZ".toList))
    ∧ (foldAuthor "Alice".toList "alice@example.com".toList
          [(demoCommit, "repo".toList)]).file_types "py".toList
        = ((([(demoCommit, "repo".toList)].map fun p =>
            p.1.files_changed).flatten).filterMap fileExtension).count
            "py".toList :=
  ⟨claim_C5_extension_histograms.1 "Makefile".toList (by decide),
    claim_C5_extension_histograms.2.1 "archive.tar.GZ".toList (by decide),
    claim_C5_extension_histograms.2.2.1 "Alice".toList
      "alice@example.com".toList [(demoCommit, "repo".toList)] "py".toList⟩

/-! ### The analysis-window average (`_calculate_overall_stats`) -/

/-- C7: `avg_commits_per_day` is `total_commits / max(window_days, 1)`,
and for a zero-length window (start = end) it is defined (the division is
by 1) and equals `total_commits`. -/
theorem claim_C7_avg_commits_per_day (start_date end_date : Int)
    (repos : List RepositoryData) :
    (transform start_date end_date repos).overall_stats.avg_commits_per_day
      = ((transform start_date end_date repos).overall_stats.total_commits : ℚ)
        / ((max (timedeltaDays (end_date - start_date)) 1 : Int) : ℚ)
    ∧ (start_date = end_date →
      (transform start_date end_date repos).overall_stats.avg_commits_per_day
        = ((transform start_date end_date repos).overall_stats.total_commits
            : ℚ)) := by
  constructor
  · rfl
  · intro h
    subst h
    have h0 : timedeltaDays (start_date - start_date) = 0 := by
      simp [timedeltaDays]
    have : (transform start_date start_date repos).overall_stats.avg_commits_per_day
        = ((transform start_date start_date repos).overall_stats.total_commits : ℚ)
          / ((max (timedeltaDays (start_date - start_date)) 1 : Int) : ℚ) := rfl
    rw [this, h0]
    norm_num

theorem claim_C7_avg_commits_per_day_witness :
    (transform 0 0 [demoRepo]).overall_stats.avg_commits_per_day
      = ((transform 0 0 [demoRepo]).overall_stats.total_commits : ℚ) :=
  (claim_C7_avg_commits_per_day 0 0 [demoRepo]).2 rfl

/-! ### Guarded summary averages (`_generate_summary`) -/

/-- C10: the summary's average computations are guarded — a zero author
count or zero repository count yields 0 instead of a division error, and
the transform of an empty repository list succeeds with both averages 0. -/
theorem claim_C10_guarded_summary (start_date end_date : Int)
    (repos : List RepositoryData) :
    ((generate_summary (transform start_date end_date repos)).total_authors = 0 →
      (generate_summary (transform start_date end_date
        repos)).avg_commits_per_author = 0)
    ∧ ((generate_summary (transform start_date end_date
          repos)).total_repositories = 0 →
      (generate_summary (transform start_date end_date
        repos)).avg_commits_per_repo = 0)
    ∧ (repos = [] →
      (generate_summary (transform start_date end_date
        repos)).avg_commits_per_author = 0
      ∧ (generate_summary (transform start_date end_date
          repos)).avg_commits_per_repo = 0
      ∧ (generate_summary (transform start_date end_date
          repos)).total_commits = 0) := by
  refine ⟨?_, ?_, ?_⟩
  · intro h
    simp only [generate_summary] at h ⊢
    rw [if_neg (by omega)]
  · intro h
    simp only [generate_summary] at h ⊢
    rw [if_neg (by omega)]
  · intro h
    subst h
    have ha : (transform start_date end_date []).author_stats = [] := by
      rw [transform_author_stats]
      show ((authorMap []).map Prod.snd).mergeSort authorLE = []
      have : (authorMap []).map Prod.snd = [] := rfl
      rw [this, List.mergeSort_nil]
    have hr : (transform start_date end_date []).repository_stats = [] := rfl
    refine ⟨?_, ?_, ?_⟩ <;> simp [generate_summary, ha, hr]

theorem claim_C10_guarded_summary_witness :
    (generate_summary (transform 0 0 [])).avg_commits_per_author = 0
    ∧ (generate_summary (transform 0 0 [])).avg_commits_per_repo = 0
    ∧ (generate_summary (transform 0 0 [])).total_commits = 0 :=
  (claim_C10_guarded_summary 0 0 []).2.2 rfl

/-! ### Delivery chunking (`slack_sender.SlackSender._split_report_by_sections`)

The loop state is `(sections, current_section)`.  The Python threshold
`max_length * 0.7` is a float; for the ceiling 4000 used by the claims it
equals exactly 2800.0, so the integer comparison `10 * len > 7 * max_length`
below coincides with the source's comparison. -/

/-- The first `if` block of the loop body: flush the buffer when the line
would not fit, otherwise append the line to the buffer. -/
def splitFlush (maxLength : Nat) (st : List Str × Str) (line : Str) :
    List Str × Str :=
  if st.2.length + line.length + 1 > maxLength then
    (if pyStrip st.2 ≠ [] then st.1 ++ [pyStrip st.2] else st.1, line)
  else
    (st.1, if st.2 ≠ [] then st.2 ++ Char.ofNat 10 :: line else line)

/-- The second `if` block: on a `##` header line, flush the (updated)
buffer when it already exceeds 70 percent of the ceiling. -/
def splitHeader (maxLength : Nat) (st : List Str × Str) (line : Str) :
    List Str × Str :=
  if ("##".toList.isPrefixOf line) ∧ pyStrip st.2 ≠ [] then
    if 10 * st.2.length > 7 * maxLength then (st.1 ++ [pyStrip st.2], [])
    else st
  else st

/-- One iteration of the `for line in lines` loop. -/
def splitStep (maxLength : Nat) (st : List Str × Str) (line : Str) :
    List Str × Str :=
  splitHeader maxLength (splitFlush maxLength st line) line

/-- Method `SlackSender._split_report_by_sections`. -/
def splitReportBySections (report : Str) (maxLength : Nat) : List Str :=
  let lines := pySplit report (Char.ofNat 10)
  let st := lines.foldl (splitStep maxLength) ([], [])
  if pyStrip st.2 ≠ [] then st.1 ++ [pyStrip st.2] else st.1

/-- The non-whitespace characters of a string, in order. -/
def nws (s : Str) : Str := s.filter fun c => !c.isWhitespace

theorem pyStrip_length_le (s : Str) : (pyStrip s).length ≤ s.length := by
  rw [pyStrip, List.length_reverse]
  calc ((s.dropWhile Char.isWhitespace).reverse.dropWhile
          Char.isWhitespace).length
      ≤ (s.dropWhile Char.isWhitespace).reverse.length :=
        (List.dropWhile_sublist _).length_le
    _ = (s.dropWhile Char.isWhitespace).length := List.length_reverse _
    _ ≤ s.length := (List.dropWhile_sublist _).length_le

theorem pyStrip_nil : pyStrip ([] : Str) = [] := rfl

theorem pyStrip_ne_nil_of_ne {s : Str} (h : pyStrip s ≠ []) : s ≠ [] := by
  intro hs
  rw [hs] at h
  exact h pyStrip_nil

theorem nws_append (a b : Str) : nws (a ++ b) = nws a ++ nws b :=
  List.filter_append ..

theorem nws_dropWhile_ws (s : Str) :
    nws (s.dropWhile Char.isWhitespace) = nws s := by
  induction s with
  | nil => rfl
  | cons a t ih =>
    rw [List.dropWhile_cons]
    by_cases h : a.isWhitespace
    · rw [if_pos h, ih]
      simp [nws, h]
    · rw [if_neg h]

theorem nws_reverse (s : Str) : nws s.reverse = (nws s).reverse :=
  List.filter_reverse _ _

theorem nws_pyStrip (s : Str) : nws (pyStrip s) = nws s := by
  rw [pyStrip, nws_reverse, nws_dropWhile_ws, nws_reverse,
    List.reverse_reverse, nws_dropWhile_ws]

theorem nws_eq_nil_of_strip {s : Str} (h : pyStrip s = []) : nws s = [] := by
  rw [← nws_pyStrip, h]
  rfl

theorem newline_isWhitespace : (Char.ofNat 10).isWhitespace = true := by decide

theorem nws_newline_cons (l : Str) : nws (Char.ofNat 10 :: l) = nws l := by
  simp [nws, newline_isWhitespace]

theorem joinLines_cons_cons (a b : Str) (t : List Str) :
    joinLines (a :: b :: t) = a ++ Char.ofNat 10 :: joinLines (b :: t) := by
  simp [joinLines, List.intercalate, List.intersperse]

theorem nws_joinLines (ls : List Str) :
    nws (joinLines ls) = (ls.map nws).flatten := by
  induction ls with
  | nil => rfl
  | cons a t ih =>
    cases t with
    | nil => simp [joinLines, List.intercalate]
    | cons b t2 =>
      rw [joinLines_cons_cons, nws_append, List.map_cons, List.flatten_cons,
        ← ih]
      rw [show (Char.ofNat 10 :: joinLines (b :: t2))
          = [Char.ofNat 10] ++ joinLines (b :: t2) from rfl,
        nws_append]
      have h10 : nws [Char.ofNat 10] = [] := by
        simp [nws, newline_isWhitespace]
      rw [h10, List.nil_append]

theorem joinLines_append_singleton {run : List Str} (l : Str) (h : run ≠ []) :
    joinLines (run ++ [l]) = joinLines run ++ Char.ofNat 10 :: l := by
  induction run with
  | nil => exact absurd rfl h
  | cons a t ih =>
    cases t with
    | nil => simp [joinLines, List.intercalate, List.intersperse]
    | cons b t2 =>
      have ih2 := ih (by simp)
      simp only [List.cons_append] at ih2 ⊢
      rw [joinLines_cons_cons, joinLines_cons_cons, ih2]
      simp

theorem joinLines_singleton (l : Str) : joinLines [l] = l := by
  simp [joinLines, List.intercalate]

theorem splitFlush_le {maxLength : Nat} {st : List Str × Str} {line : Str}
    (hline : line.length ≤ maxLength) (hcur : st.2.length ≤ maxLength)
    (hsecs : ∀ c ∈ st.1, c.length ≤ maxLength) :
    (splitFlush maxLength st line).2.length ≤ maxLength
    ∧ ∀ c ∈ (splitFlush maxLength st line).1, c.length ≤ maxLength := by
  rw [splitFlush]
  by_cases hov : st.2.length + line.length + 1 > maxLength
  · rw [if_pos hov]
    refine ⟨hline, ?_⟩
    by_cases hstr : pyStrip st.2 ≠ []
    · rw [if_pos hstr]
      intro c hc
      rcases List.mem_append.mp hc with h | h
      · exact hsecs c h
      · simp only [List.mem_singleton] at h
        subst h
        exact le_trans (pyStrip_length_le _) hcur
    · rw [if_neg hstr]
      exact hsecs
  · rw [if_neg hov]
    refine ⟨?_, hsecs⟩
    by_cases hc : st.2 ≠ []
    · rw [if_pos hc]
      simp only [List.length_append, List.length_cons]
      omega
    · rw [if_neg hc]
      exact hline

theorem splitHeader_le {maxLength : Nat} {st : List Str × Str} {line : Str}
    (hcur : st.2.length ≤ maxLength)
    (hsecs : ∀ c ∈ st.1, c.length ≤ maxLength) :
    (splitHeader maxLength st line).2.length ≤ maxLength
    ∧ ∀ c ∈ (splitHeader maxLength st line).1, c.length ≤ maxLength := by
  rw [splitHeader]
  by_cases h1 : ("##".toList.isPrefixOf line) ∧ pyStrip st.2 ≠ []
  · rw [if_pos h1]
    by_cases h2 : 10 * st.2.length > 7 * maxLength
    · rw [if_pos h2]
      refine ⟨by simp, ?_⟩
      intro c hc
      rcases List.mem_append.mp hc with h | h
      · exact hsecs c h
      · simp only [List.mem_singleton] at h
        subst h
        exact le_trans (pyStrip_length_le _) hcur
    · rw [if_neg h2]
      exact ⟨hcur, hsecs⟩
  · rw [if_neg h1]
    exact ⟨hcur, hsecs⟩

theorem splitStep_le {maxLength : Nat} {st : List Str × Str} {line : Str}
    (hline : line.length ≤ maxLength) (hcur : st.2.length ≤ maxLength)
    (hsecs : ∀ c ∈ st.1, c.length ≤ maxLength) :
    (splitStep maxLength st line).2.length ≤ maxLength
    ∧ ∀ c ∈ (splitStep maxLength st line).1, c.length ≤ maxLength := by
  rw [splitStep]
  have hf := splitFlush_le hline hcur hsecs
  exact splitHeader_le hf.1 hf.2

theorem foldl_splitStep_le (maxLength : Nat) (lines : List Str) :
    ∀ st : List Str × Str, (∀ l ∈ lines, l.length ≤ maxLength) →
      st.2.length ≤ maxLength → (∀ c ∈ st.1, c.length ≤ maxLength) →
      (lines.foldl (splitStep maxLength) st).2.length ≤ maxLength
      ∧ ∀ c ∈ (lines.foldl (splitStep maxLength) st).1,
          c.length ≤ maxLength := by
  induction lines with
  | nil => intro st _ h1 h2; exact ⟨h1, h2⟩
  | cons l rest ih =>
    intro st hl h1 h2
    simp only [List.foldl_cons]
    have hstep := splitStep_le (hl l (by simp)) h1 h2
    exact ih _ (fun x hx => hl x (by simp [hx])) hstep.1 hstep.2

theorem splitFlush_nws (maxLength : Nat) (st : List Str × Str) (line : Str) :
    nws ((splitFlush maxLength st line).1.flatten
        ++ (splitFlush maxLength st line).2)
      = nws (st.1.flatten ++ st.2) ++ nws line := by
  rw [splitFlush]
  by_cases hov : st.2.length + line.length + 1 > maxLength
  · rw [if_pos hov]
    by_cases hstr : pyStrip st.2 ≠ []
    · rw [if_pos hstr]
      simp [List.flatten_append, nws_append, nws_pyStrip, List.append_assoc]
    · rw [if_neg hstr]
      push_neg at hstr
      have h0 : nws st.2 = [] := nws_eq_nil_of_strip hstr
      simp [nws_append, h0]
  · rw [if_neg hov]
    by_cases hc : st.2 ≠ []
    · rw [if_pos hc]
      have : nws (Char.ofNat 10 :: line) = nws line := nws_newline_cons line
      simp [nws_append, this, List.append_assoc]
    · rw [if_neg hc]
      push_neg at hc
      rw [hc]
      simp [nws_append, nws]

theorem splitHeader_nws (maxLength : Nat) (st : List Str × Str) (line : Str) :
    nws ((splitHeader maxLength st line).1.flatten
        ++ (splitHeader maxLength st line).2)
      = nws (st.1.flatten ++ st.2) := by
  rw [splitHeader]
  by_cases h1 : ("##".toList.isPrefixOf line) ∧ pyStrip st.2 ≠ []
  · rw [if_pos h1]
    by_cases h2 : 10 * st.2.length > 7 * maxLength
    · rw [if_pos h2]
      show nws ((st.1 ++ [pyStrip st.2]).flatten ++ []) = _
      rw [List.append_nil, List.flatten_append, List.flatten_cons,
        List.flatten_nil, List.append_nil, nws_append, nws_pyStrip,
        ← nws_append]
    · rw [if_neg h2]
  · rw [if_neg h1]

theorem splitStep_nws (maxLength : Nat) (st : List Str × Str) (line : Str) :
    nws ((splitStep maxLength st line).1.flatten
        ++ (splitStep maxLength st line).2)
      = nws (st.1.flatten ++ st.2) ++ nws line := by
  rw [splitStep, splitHeader_nws, splitFlush_nws]

theorem foldl_splitStep_nws (maxLength : Nat) (lines : List Str) :
    ∀ st : List Str × Str,
      nws ((lines.foldl (splitStep maxLength) st).1.flatten
          ++ (lines.foldl (splitStep maxLength) st).2)
        = nws (st.1.flatten ++ st.2) ++ (lines.map nws).flatten := by
  induction lines with
  | nil => intro st; simp
  | cons l rest ih =>
    intro st
    simp only [List.foldl_cons, List.map_cons, List.flatten_cons]
    rw [ih, splitStep_nws, List.append_assoc]

/-- Chunk predicate: `c` is a chunk of the line list `ls`, the strip of the newline-join of
a nonempty contiguous run of lines — no line is ever split across chunks. -/
def IsChunkOf (ls : List Str) (c : Str) : Prop :=
  ∃ run pre post, run ≠ ([] : List Str) ∧ ls = pre ++ run ++ post
    ∧ c = pyStrip (joinLines run)

/-- The running buffer is the newline-join of a suffix of the consumed
lines. -/
def IsBufferOf (ls : List Str) (cur : Str) : Prop :=
  ∃ run pre, ls = pre ++ run ∧ cur = joinLines run

theorem IsChunkOf_append {ls : List Str} {c : Str} (more : List Str)
    (h : IsChunkOf ls c) : IsChunkOf (ls ++ more) c := by
  obtain ⟨run, pre, post, hne, hls, hc⟩ := h
  exact ⟨run, pre, post ++ more, hne, by rw [hls]; simp [List.append_assoc], hc⟩

theorem IsChunkOf_of_buffer {ls : List Str} {cur : Str}
    (h : IsBufferOf ls cur) (hne : cur ≠ []) : IsChunkOf ls (pyStrip cur) := by
  obtain ⟨run, pre, hls, hcur⟩ := h
  have hrne : run ≠ [] := by
    intro h0
    rw [h0] at hcur
    exact hne (by rw [hcur]; rfl)
  exact ⟨run, pre, [], hrne, by rw [hls]; simp, by rw [hcur]⟩

theorem splitFlush_runs {maxLength : Nat} {st : List Str × Str} {line : Str}
    {done : List Str} (hsecs : ∀ c ∈ st.1, IsChunkOf done c)
    (hcur : IsBufferOf done st.2) :
    (∀ c ∈ (splitFlush maxLength st line).1, IsChunkOf (done ++ [line]) c)
    ∧ IsBufferOf (done ++ [line]) (splitFlush maxLength st line).2 := by
  rw [splitFlush]
  by_cases hov : st.2.length + line.length + 1 > maxLength
  · rw [if_pos hov]
    by_cases hstr : pyStrip st.2 ≠ []
    · rw [if_pos hstr]
      refine ⟨?_, [line], done, rfl, (joinLines_singleton line).symm⟩
      intro c hc
      rcases List.mem_append.mp hc with h | h
      · exact IsChunkOf_append [line] (hsecs c h)
      · simp only [List.mem_singleton] at h
        subst h
        exact IsChunkOf_append [line]
          (IsChunkOf_of_buffer hcur (pyStrip_ne_nil_of_ne hstr))
    · rw [if_neg hstr]
      exact ⟨fun c hc => IsChunkOf_append [line] (hsecs c hc),
        [line], done, rfl, (joinLines_singleton line).symm⟩
  · rw [if_neg hov]
    by_cases hc : st.2 ≠ []
    · rw [if_pos hc]
      obtain ⟨run, pre, hd, hj⟩ := hcur
      have hrne : run ≠ [] := by
        intro h0
        rw [h0] at hj
        exact hc (by rw [hj]; rfl)
      refine ⟨fun c hcm => IsChunkOf_append [line] (hsecs c hcm),
        run ++ [line], pre, ?_, ?_⟩
      · rw [hd, List.append_assoc]
      · rw [joinLines_append_singleton _ hrne, ← hj]
    · rw [if_neg hc]
      exact ⟨fun c hcm => IsChunkOf_append [line] (hsecs c hcm),
        [line], done, rfl, (joinLines_singleton line).symm⟩

theorem splitHeader_runs {maxLength : Nat} {st : List Str × Str} {line : Str}
    {ls : List Str} (hsecs : ∀ c ∈ st.1, IsChunkOf ls c)
    (hcur : IsBufferOf ls st.2) :
    (∀ c ∈ (splitHeader maxLength st line).1, IsChunkOf ls c)
    ∧ IsBufferOf ls (splitHeader maxLength st line).2 := by
  rw [splitHeader]
  by_cases h1 : ("##".toList.isPrefixOf line) ∧ pyStrip st.2 ≠ []
  · rw [if_pos h1]
    by_cases h2 : 10 * st.2.length > 7 * maxLength
    · rw [if_pos h2]
      refine ⟨?_, [], ls, by simp, rfl⟩
      intro c hc
      rcases List.mem_append.mp hc with h | h
      · exact hsecs c h
      · simp only [List.mem_singleton] at h
        subst h
        exact IsChunkOf_of_buffer hcur (pyStrip_ne_nil_of_ne h1.2)
    · rw [if_neg h2]
      exact ⟨hsecs, hcur⟩
  · rw [if_neg h1]
    exact ⟨hsecs, hcur⟩

theorem splitStep_runs {maxLength : Nat} {st : List Str × Str} {line : Str}
    {done : List Str} (hsecs : ∀ c ∈ st.1, IsChunkOf done c)
    (hcur : IsBufferOf done st.2) :
    (∀ c ∈ (splitStep maxLength st line).1, IsChunkOf (done ++ [line]) c)
    ∧ IsBufferOf (done ++ [line]) (splitStep maxLength st line).2 := by
  rw [splitStep]
  have hf := @splitFlush_runs maxLength st line done hsecs hcur
  exact splitHeader_runs hf.1 hf.2

theorem foldl_splitStep_runs (maxLength : Nat) (lines : List Str) :
    ∀ (st : List Str × Str) (done : List Str),
      (∀ c ∈ st.1, IsChunkOf done c) → IsBufferOf done st.2 →
      (∀ c ∈ (lines.foldl (splitStep maxLength) st).1,
        IsChunkOf (done ++ lines) c)
      ∧ IsBufferOf (done ++ lines)
          (lines.foldl (splitStep maxLength) st).2 := by
  induction lines with
  | nil =>
    intro st done h1 h2
    simpa using ⟨h1, h2⟩
  | cons l rest ih =>
    intro st done h1 h2
    simp only [List.foldl_cons]
    have hstep := @splitStep_runs maxLength st l done h1 h2
    have hrec := ih (splitStep maxLength st l) (done ++ [l]) hstep.1 hstep.2
    simpa [List.append_assoc] using hrec

theorem nws_nil : nws ([] : Str) = [] := rfl

theorem splitReportBySections_eq (report : Str) (maxLength : Nat) :
    splitReportBySections report maxLength
      = if pyStrip ((pySplit report (Char.ofNat 10)).foldl
            (splitStep maxLength) ([], [])).2 ≠ []
        then ((pySplit report (Char.ofNat 10)).foldl
              (splitStep maxLength) ([], [])).1
            ++ [pyStrip ((pySplit report (Char.ofNat 10)).foldl
              (splitStep maxLength) ([], [])).2]
        else ((pySplit report (Char.ofNat 10)).foldl
              (splitStep maxLength) ([], [])).1 := rfl

/-- C1 (amended): when every line of the report is at most 4000 units
long, no chunk produced by the delivery chunker exceeds the 4000 ceiling;
moreover no line is ever split mid-line — every chunk is the stripped
newline-join of a nonempty contiguous run of input lines — and the
concatenated chunks reproduce the report's non-whitespace character
sequence in order (reconstruction is exact up to the separators and the
whitespace that `strip()` removes at chunk boundaries). -/
theorem claim_C1_chunker_ceiling (report : Str)
    (hlines : ∀ line ∈ pySplit report (Char.ofNat 10), line.length ≤ 4000) :
    (∀ chunk ∈ splitReportBySections report 4000, chunk.length ≤ 4000)
    ∧ nws ((splitReportBySections report 4000).flatten) = nws report
    ∧ ∀ chunk ∈ splitReportBySections report 4000,
        IsChunkOf (pySplit report (Char.ofNat 10)) chunk := by
  have hnwsreport : ((pySplit report (Char.ofNat 10)).map nws).flatten
      = nws report := by
    rw [← nws_joinLines, joinLines_pySplit]
  have hle := foldl_splitStep_le 4000 (pySplit report (Char.ofNat 10))
    ([], []) hlines (by simp) (by simp)
  have hnws := foldl_splitStep_nws 4000 (pySplit report (Char.ofNat 10))
    ([], [])
  have hruns := foldl_splitStep_runs 4000 (pySplit report (Char.ofNat 10))
    ([], []) [] (by simp) ⟨[], [], rfl, rfl⟩
  simp only [List.nil_append] at hruns
  simp only [List.flatten_nil, List.nil_append, nws_nil] at hnws
  rw [splitReportBySections_eq]
  by_cases hstr : pyStrip ((pySplit report (Char.ofNat 10)).foldl
      (splitStep 4000) ([], [])).2 ≠ []
  · rw [if_pos hstr]
    refine ⟨?_, ?_, ?_⟩
    · intro chunk hc
      rcases List.mem_append.mp hc with h | h
      · exact hle.2 chunk h
      · simp only [List.mem_singleton] at h
        subst h
        exact le_trans (pyStrip_length_le _) hle.1
    · rw [List.flatten_append, List.flatten_cons, List.flatten_nil,
        List.append_nil, nws_append, nws_pyStrip, ← nws_append, hnws,
        hnwsreport]
    · intro chunk hc
      rcases List.mem_append.mp hc with h | h
      · exact hruns.1 chunk h
      · simp only [List.mem_singleton] at h
        subst h
        exact IsChunkOf_of_buffer hruns.2 (pyStrip_ne_nil_of_ne hstr)
  · rw [if_neg hstr]
    push_neg at hstr
    refine ⟨fun chunk hc => hle.2 chunk hc, ?_,
      fun chunk hc => hruns.1 chunk hc⟩
    have h0 : nws ((pySplit report (Char.ofNat 10)).foldl
        (splitStep 4000) ([], [])).2 = [] := nws_eq_nil_of_strip hstr
    rw [← hnwsreport, ← hnws, nws_append, h0, List.append_nil]

theorem claim_C1_chunker_ceiling_witness :
    (∀ line ∈ pySplit "## A\nbody".toList (Char.ofNat 10),
      line.length ≤ 4000)
    ∧ (∀ chunk ∈ splitReportBySections "## A\nbody".toList 4000,
        chunk.length ≤ 4000)
    ∧ nws ((splitReportBySections "## A\nbody".toList 4000).flatten)
        = nws "## A\nbody".toList
    ∧ ∀ chunk ∈ splitReportBySections "## A\nbody".toList 4000,
        IsChunkOf (pySplit "## A\nbody".toList (Char.ofNat 10)) chunk := by
  have h1 : ∀ line ∈ pySplit "## A\nbody".toList (Char.ofNat 10),
      line.length ≤ 4000 := by decide
  have h := claim_C1_chunker_ceiling "## A\nbody".toList h1
  exact ⟨h1, h.1, h.2.1, h.2.2⟩

/-- C1 fails as stated: a single line longer than the ceiling is emitted
as a chunk longer than the ceiling, and a trailing blank line is dropped
by the boundary `strip()`, so the chunks cannot reproduce the exact line
sequence. -/
theorem claim_C1_counterexample :
    (¬ ∀ chunk ∈ splitReportBySections (List.replicate 4001 'a') 4000,
      chunk.length ≤ 4000)
    ∧ splitReportBySections ("x".toList ++ [Char.ofNat 10]) 4000
        = ["x".toList]
    ∧ pySplit ("x".toList ++ [Char.ofNat 10]) (Char.ofNat 10)
        = ["x".toList, []] := by
  refine ⟨?_, by decide, by decide⟩
  have hnl : (Char.ofNat 10) ∉ List.replicate 4001 'a' := by
    intro h
    have := List.eq_of_mem_replicate h
    exact absurd this (by decide)
  have hlen : (List.replicate 4001 'a' : Str).length = 4001 :=
    List.length_replicate 4001 'a'
  have hne : (List.replicate 4001 'a' : Str) ≠ [] := by
    intro h
    have h2 := congrArg List.length h
    rw [hlen] at h2
    simp at h2
  have hdw : ∀ (l : Str), (∀ c ∈ l, c.isWhitespace = false) →
      l.dropWhile Char.isWhitespace = l := by
    intro l hl
    cases l with
    | nil => rfl
    | cons a t =>
      rw [List.dropWhile_cons, hl a (by simp)]
      simp
  have hall : ∀ c ∈ (List.replicate 4001 'a' : Str),
      c.isWhitespace = false := by
    intro c hc
    rw [List.eq_of_mem_replicate hc]
    decide
  have hstrip : pyStrip (List.replicate 4001 'a')
      = List.replicate 4001 'a' := by
    rw [pyStrip, hdw _ hall, List.reverse_replicate, hdw _ hall,
      List.reverse_replicate]
  have hsplit : pySplit (List.replicate 4001 'a') (Char.ofNat 10)
      = [List.replicate 4001 'a'] := pySplit_not_mem _ _ hnl
  have hpre : ("##".toList.isPrefixOf (List.replicate 4001 'a')) = false := by
    have hbeq : (('#' == 'a') : Bool) = false := by decide
    have h2 : "##".toList = ['#', '#'] := rfl
    rw [h2, show (4001 : Nat) = 4000 + 1 from rfl, List.replicate_succ]
    simp only [List.isPrefixOf, hbeq, Bool.false_and]
  have c1 : ((([] : List Str), ([] : Str)) : List Str × Str).2.length
      + (List.replicate 4001 'a' : Str).length + 1 > 4000 := by
    rw [hlen]
    decide
  have c2 : ¬ (pyStrip ((([] : List Str), ([] : Str)) :
      List Str × Str).2 ≠ []) := by
    rw [pyStrip_nil]
    simp
  have c3 : ¬ (("##".toList.isPrefixOf (List.replicate 4001 'a'))
      ∧ pyStrip ((([] : List Str), (List.replicate 4001 'a' : Str)) :
        List Str × Str).2 ≠ []) := by
    intro hcontra
    have h1 := hcontra.1
    rw [hpre] at h1
    exact absurd h1 (by simp)
  have hstep : splitStep 4000 ([], []) (List.replicate 4001 'a')
      = ([], List.replicate 4001 'a') := by
    rw [splitStep, splitFlush, if_pos c1, if_neg c2, splitHeader, if_neg c3]
  have c4 : pyStrip ((([] : List Str),
      (List.replicate 4001 'a' : Str)) : List Str × Str).2 ≠ [] := by
    rw [hstrip]
    exact hne
  have hres : splitReportBySections (List.replicate 4001 'a') 4000
      = [List.replicate 4001 'a'] := by
    rw [splitReportBySections_eq, hsplit, List.foldl_cons, List.foldl_nil,
      hstep, if_pos c4, hstrip]
    rfl
  intro hall2
  have hc := hall2 (List.replicate 4001 'a')
    (by rw [hres]; exact List.mem_singleton.mpr rfl)
  rw [hlen] at hc
  omega

/-! ### Fallback report (`llm_generator.LLMReportGenerator._generate_fallback_report`)

The input document is the nested mapping produced by
`TransformedData.to_dict`, restricted to the keys the fallback reads. -/

/-- Python `str(n)` for an int. -/
def intToStr (n : Int) : Str := (toString n).toList

/-- Groups of three digits, least-significant first. -/
def chunk3 : Str → List Str
  | [] => []
  | [a] => [[a]]
  | [a, b] => [[a, b]]
  | a :: b :: c :: rest => [a, b, c] :: chunk3 rest

/-- Python thousands-separator formatting, the comma format spec. -/
def commaFmt (n : Int) : Str :=
  let ds := (toString n.natAbs).toList
  let groups := chunk3 ds.reverse
  (if n < 0 then ['-'] else [])
    ++ List.intercalate [','] ((groups.map List.reverse).reverse)

/-- The `overall_stats` keys the fallback reads. -/
structure OverallStatsDoc where
  total_commits : Int
  total_insertions : Int
  total_deletions : Int
  net_lines : Int
  deriving DecidableEq

/-- The `summary` keys the fallback reads. -/
structure SummaryDoc where
  total_repositories : Int
  total_authors : Int
  deriving DecidableEq

/-- The `time_window` keys the fallback reads. -/
structure TimeWindowDoc where
  start_date : Str
  end_date : Str
  deriving DecidableEq

/-- One `repository_stats` entry, restricted to the keys the fallback
reads. -/
structure RepoDoc where
  name : Str
  total_commits : Int
  unique_authors : Int
  total_files_changed : Int
  net_lines : Int
  deriving DecidableEq

/-- One `author_stats` entry, restricted to the keys the fallback reads. -/
structure AuthorDoc where
  name : Str
  total_commits : Int
  total_insertions : Int
  total_deletions : Int
  total_files_changed : Int
  deriving DecidableEq

/-- The document handed to the fallback generator. -/
structure ReportDoc where
  overall_stats : OverallStatsDoc
  summary : SummaryDoc
  time_window : TimeWindowDoc
  repository_stats : List RepoDoc
  author_stats : List AuthorDoc
  deriving DecidableEq

/-- The per-repository section of the fallback report. -/
def repoSection (r : RepoDoc) : Str :=
  "\n### ".toList ++ r.name
    ++ "\n- Commits: ".toList ++ intToStr r.total_commits
    ++ "\n- Contributors: ".toList ++ intToStr r.unique_authors
    ++ "\n- Files Changed: ".toList ++ intToStr r.total_files_changed
    ++ "\n- Net Lines: ".toList ++ commaFmt r.net_lines
    ++ "\n".toList

/-- The per-author section of the fallback report (`i` is the 1-based
`enumerate` index). -/
def authorSection (i : Nat) (a : AuthorDoc) : Str :=
  "\n".toList ++ intToStr (i : Int) ++ ". **".toList ++ a.name
    ++ "**\n   - Commits: ".toList ++ intToStr a.total_commits
    ++ "\n   - Lines Added: ".toList ++ commaFmt a.total_insertions
    ++ "\n   - Lines Removed: ".toList ++ commaFmt a.total_deletions
    ++ "\n   - Files Changed: ".toList ++ intToStr a.total_files_changed
    ++ "\n".toList

/-- `LLMReportGenerator._generate_fallback_report`. -/
def generate_fallback_report (d : ReportDoc) : Str :=
  "# Git Repository Analysis Report\n        \n## Executive Summary\nAnalysis of ".toList
    ++ intToStr d.summary.total_repositories
    ++ " repositories from ".toList ++ d.time_window.start_date
    ++ " to ".toList ++ d.time_window.end_date
    ++ ".\n\n## Overall Activity\n- **Total Commits**: ".toList
    ++ intToStr d.overall_stats.total_commits
    ++ "\n- **Total Contributors**: ".toList
    ++ intToStr d.summary.total_authors
    ++ "\n- **Total Repositories**: ".toList
    ++ intToStr d.summary.total_repositories
    ++ "\n- **Lines Added**: ".toList
    ++ commaFmt d.overall_stats.total_insertions
    ++ "\n- **Lines Removed**: ".toList
    ++ commaFmt d.overall_stats.total_deletions
    ++ "\n- **Net Lines Changed**: ".toList
    ++ commaFmt d.overall_stats.net_lines
    ++ "\n\n## Repository Summary\n".toList
    ++ ((d.repository_stats.take 5).map repoSection).flatten
    ++ "\n## Top Contributors\n".toList
    ++ (((d.author_stats.take 5).enum).map fun p =>
          authorSection (p.1 + 1) p.2).flatten
    ++ "\n---\n*Report generated by Git Sniff Otter*".toList

/-- C8: the fallback generator is a pure function of the input document —
two invocations on equal documents yield identical output text. -/
theorem claim_C8_fallback_deterministic (d1 d2 : ReportDoc) (h : d1 = d2) :
    generate_fallback_report d1 = generate_fallback_report d2 := by
  rw [h]

/-- Sample document for the witness instantiation. -/
def demoDoc : ReportDoc :=
  { overall_stats := ⟨3, 1234, 56, 1178⟩
    summary := ⟨2, 1⟩
    time_window := ⟨"2024-01-01".toList, "2024-01-08".toList⟩
    repository_stats := [⟨"repo".toList, 3, 1, 4, 1178⟩]
    author_stats := [⟨"Alice".toList, 3, 1234, 56, 4⟩] }

theorem claim_C8_fallback_deterministic_witness :
    demoDoc = demoDoc
    ∧ generate_fallback_report demoDoc = generate_fallback_report demoDoc :=
  ⟨rfl, claim_C8_fallback_deterministic demoDoc demoDoc rfl⟩
